import Mathlib

/-!
# Verification of the GPU conjugate-gradient solver and its kernels

Shallow embedding of the CUDA kernels and the host-side control flow of the
Poisson/CG program (`dot_product_openCL.cpp`, CUDA sections): the reduction
dot product, the CSR sparse matrix-vector product, the two vector-update
kernels, the three-pass exclusive scan, the stencil assembly, and the
conjugate-gradient loop.  Device `double` arithmetic is modelled exactly over
`ℚ` (the properties under scrutiny treat additions as exact), the integer
scan data over `ℤ`, and array reads `a[i]` on length-`N` device buffers as
`List.getD` with default `0`.
-/

/-! ## ReductionDot: `cuda_dot_product`

The kernel is launched as `cuda_dot_product<<<G, B>>>(N, x, y, result)` with
`B = 2 ^ m` threads per block (the program uses `G = 512`, `B = 512 = 2 ^ 9`).
Thread `t` of block `b` runs the grid-stride loop
`for (i = b*B + t; i < N; i += B*G) dot += x[i] * y[i];`, which visits exactly
the indices `i < N` with `i % (G*B) = b*B + t`; the per-thread totals go to
`shared_mem`, are tree-reduced in `log2 B` halving rounds, and block sums are
atomically accumulated onto `*result` (in `ℚ` the accumulation order is
immaterial). -/

/-- Exact inner product over the first `N` indices, `∑_{i<N} x[i]*y[i]`. -/
def dotN (N : ℕ) (x y : List ℚ) : ℚ :=
  ∑ i in Finset.range N, x.getD i 0 * y.getD i 0

/-- Per-thread accumulator of the grid-stride loop of `cuda_dot_product`:
the sum over the indices `i < N` congruent to `tid` modulo the grid size. -/
def threadDot (N : ℕ) (x y : List ℚ) (gsize tid : ℕ) : ℚ :=
  ∑ i in (Finset.range N).filter (fun i => i % gsize = tid), x.getD i 0 * y.getD i 0

/-- One tree-reduction round `if (threadIdx.x < k) shared[t] += shared[t + k]`. -/
def reduceStep (s : ℕ → ℚ) (k : ℕ) : ℕ → ℚ :=
  fun t => if t < k then s t + s (t + k) else s t

/-- The loop `for (k = blockDim.x / 2; k > 0; k /= 2)` for `blockDim.x = 2 ^ m`:
rounds with `k = 2 ^ (m-1), ..., 2, 1`. -/
def treeReduce : ℕ → (ℕ → ℚ) → ℕ → ℚ
  | 0, s => s
  | m + 1, s => treeReduce m (reduceStep s (2 ^ m))

/-- `shared_mem[0]` of block `b` after the in-block reduction: the tree-reduced
per-thread partial sums of the `2 ^ m` threads of the block. -/
def blockDot (N : ℕ) (x y : List ℚ) (G m b : ℕ) : ℚ :=
  treeReduce m (fun t => threadDot N x y (G * 2 ^ m) (b * 2 ^ m + t)) 0

/-- Effect of `cuda_dot_product<<<G, 2^m>>>(N, x, y, result)`: thread 0 of every
block atomically adds the block's reduced sum onto `*result`. The kernel only
accumulates; it never clears `*result`. -/
def cuda_dot_product (N : ℕ) (x y : List ℚ) (result : ℚ) (G m : ℕ) : ℚ :=
  result + ∑ b in Finset.range G, blockDot N x y G m b

/-! ## SparseMatVec: `cuda_csr_matvec_product` -/

/-- Inner loop of `cuda_csr_matvec_product` for one row:
`sum = 0; for (k = lo; k < hi; k++) sum += values[k] * x[col_indices[k]];`,
written with the iteration count `hi - lo` explicit. -/
def csrRowLoop (ci : List ℕ) (vals x : List ℚ) : ℕ → ℕ → ℚ → ℚ
  | 0, _, sum => sum
  | cnt + 1, k, sum =>
    csrRowLoop ci vals x cnt (k + 1) (sum + vals.getD k 0 * x.getD (ci.getD k 0) 0)

/-- `y = A * x` for the CSR matrix `(row_offsets, col_indices, values)`:
the grid-stride loop over rows assigns every row `i < N` to exactly one
thread, which writes `y[i]` once. -/
def cuda_csr_matvec_product (N : ℕ) (ro ci : List ℕ) (vals x : List ℚ) : List ℚ :=
  (List.range N).map (fun i =>
    csrRowLoop ci vals x (ro.getD (i + 1) 0 - ro.getD i 0) (ro.getD i 0) 0)

/-- Row `i` of `A·x` as the specification words it:
`∑ values[k] * x[col_indices[k]]` for `k ∈ [row_offsets[i], row_offsets[i+1])`. -/
def csrRowSum (ro ci : List ℕ) (vals x : List ℚ) (i : ℕ) : ℚ :=
  ∑ k in Finset.Ico (ro.getD i 0) (ro.getD (i + 1) 0),
    vals.getD k 0 * x.getD (ci.getD k 0) 0

/-- `A·x` as the specification words it, row by row. -/
def matvecSpec (N : ℕ) (ro ci : List ℕ) (vals x : List ℚ) : List ℚ :=
  (List.range N).map (csrRowSum ro ci vals x)

/-! ## VectorAxpy: `cuda_vecadd` and `cuda_vecadd2` -/

/-- `cuda_vecadd`: `x[i] += alpha * y[i]` for every `i < N` (grid-stride,
element-wise, each index owned by one thread). -/
def cuda_vecadd (N : ℕ) (x y : List ℚ) (alpha : ℚ) : List ℚ :=
  (List.range N).map (fun i => x.getD i 0 + alpha * y.getD i 0)

/-- `cuda_vecadd2`: `x[i] = y[i] + alpha * x[i]` for every `i < N`. -/
def cuda_vecadd2 (N : ℕ) (x y : List ℚ) (alpha : ℚ) : List ℚ :=
  (List.range N).map (fun i => y.getD i 0 + alpha * x.getD i 0)

/-! ## ConjugateGradientSolver: `conjugate_gradient`

Host-side control loop of `conjugate_gradient(N, ro, ci, vals, rhs, solution)`.
The scalar device cell is reset to zero (`cudaMemcpy(cuda_scalar, &zero, ...)`)
immediately before every `cuda_dot_product` launch, which the model renders by
passing `0` as the kernel's initial `result`.  The stopping test
`sqrt(rr_new / rr0) < 1e-6` is modelled square-root-free as
`rr_new * 10^12 < rr0`: for `rr0 > 0` the two are equivalent (`rr_new ≥ 0` is a
sum of squares), and for `rr0 = 0` both are false (in C the quotient is
NaN/inf and the `<` comparison fails). -/

/-- The solver's per-iteration state: `cuda_solution`, `cuda_r`, `cuda_p`,
the cached `residual_norm_squared`, and the host iteration counter `iters`. -/
structure CGState where
  sol : List ℚ
  r : List ℚ
  p : List ℚ
  rr : ℚ
  iters : ℕ

/-- One pass through the `while (1)` body of `conjugate_gradient`.  Result
`(t, some true)` is the convergence `break` (taken before `p` is updated and
before `iters` is incremented), `(t, some false)` the iteration-cap `break`
(taken after `p` is updated, before the increment), `(t, none)` continues. -/
def cgBody (N : ℕ) (ro ci : List ℕ) (vals : List ℚ) (rr0 : ℚ) (s : CGState) :
    CGState × Option Bool :=
  let Ap := cuda_csr_matvec_product N ro ci vals s.p
  let pAp := cuda_dot_product N s.p Ap 0 512 9
  let alpha := s.rr / pAp
  let sol := cuda_vecadd N s.sol s.p alpha
  let r := cuda_vecadd N s.r Ap (-alpha)
  let rr := cuda_dot_product N r r 0 512 9
  if rr * 1000000000000 < rr0 then
    (⟨sol, r, s.p, rr, s.iters⟩, some true)
  else
    let beta := rr / s.rr
    let p := cuda_vecadd2 N s.p r beta
    if 10000 < s.iters then
      (⟨sol, r, p, rr, s.iters⟩, some false)
    else
      (⟨sol, r, p, rr, s.iters + 1⟩, none)

/-- The `while (1)` loop, with fuel.  `cgLoop` with fuel `10003` runs the loop
to its `break` (the iteration cap bounds the body executions by `10002`). -/
def cgLoop (N : ℕ) (ro ci : List ℕ) (vals : List ℚ) (rr0 : ℚ) :
    ℕ → CGState → Option (CGState × Bool)
  | 0, _ => none
  | fuel + 1, s =>
    match cgBody N ro ci vals rr0 s with
    | (t, some b) => some (t, b)
    | (t, none) => cgLoop N ro ci vals rr0 fuel t

/-- Solver entry: `std::fill(solution, solution + N, 0)` overwrites the
caller's buffer before anything reads it, `p` and `r` receive `rhs`, and the
initial `residual_norm_squared` is produced by a zero-reset `cuda_dot_product`
launch on `r`. -/
def cgInit (N : ℕ) (rhs solution : List ℚ) : CGState :=
  let filled := solution.map (fun _ => (0 : ℚ))
  let sol := (List.range N).map (fun i => filled.getD i 0)
  let r := (List.range N).map (fun i => rhs.getD i 0)
  ⟨sol, r, r, cuda_dot_product N r r 0 512 9, 0⟩

/-- The full solver run: terminal state and convergence flag of the loop. -/
def cgRun (N : ℕ) (ro ci : List ℕ) (vals rhs solution : List ℚ) :
    Option (CGState × Bool) :=
  cgLoop N ro ci vals (cgInit N rhs solution).rr 10003 (cgInit N rhs solution)

/-- Caller-visible result of `conjugate_gradient`: the function returns `void`
and hands back only the `solution` buffer (`cudaMemcpy(solution, cuda_solution,
...)` after the loop); the iteration count and the convergence message are
printed, not returned. -/
def conjugate_gradient (N : ℕ) (ro ci : List ℕ) (vals rhs solution : List ℚ) :
    List ℚ :=
  match cgRun N ro ci vals rhs solution with
  | some (t, _) => t.sol
  | none => []

/-- The host-local iteration counter at loop exit (printed, never returned). -/
def cgIters (N : ℕ) (ro ci : List ℕ) (vals rhs solution : List ℚ) : ℕ :=
  match cgRun N ro ci vals rhs solution with
  | some (t, _) => t.iters
  | none => 0

/-! Specification-side CG recurrence, worded as in the design document:
`alpha = (r·r)/(p·Ap)` with the cached `r·r`, `solution += alpha·p`,
`r -= alpha·Ap`, new `r·r`, and on non-termination `beta = new/old`,
`p = r + beta·p`. -/

/-- One iteration of the CG recurrence exactly as specified. -/
def cgStepSpec (N : ℕ) (ro ci : List ℕ) (vals : List ℚ) (rr0 : ℚ) (s : CGState) :
    CGState × Option Bool :=
  let Ap := matvecSpec N ro ci vals s.p
  let alpha := s.rr / dotN N s.p Ap
  let sol := (List.range N).map (fun i => s.sol.getD i 0 + alpha * s.p.getD i 0)
  let r := (List.range N).map (fun i => s.r.getD i 0 - alpha * Ap.getD i 0)
  let rr := dotN N r r
  if rr * 1000000000000 < rr0 then
    (⟨sol, r, s.p, rr, s.iters⟩, some true)
  else
    let beta := rr / s.rr
    let p := (List.range N).map (fun i => r.getD i 0 + beta * s.p.getD i 0)
    if 10000 < s.iters then
      (⟨sol, r, p, rr, s.iters⟩, some false)
    else
      (⟨sol, r, p, rr, s.iters + 1⟩, none)

/-- The loop over `cgStepSpec`. -/
def cgLoopSpec (N : ℕ) (ro ci : List ℕ) (vals : List ℚ) (rr0 : ℚ) :
    ℕ → CGState → Option (CGState × Bool)
  | 0, _ => none
  | fuel + 1, s =>
    match cgStepSpec N ro ci vals rr0 s with
    | (t, some b) => some (t, b)
    | (t, none) => cgLoopSpec N ro ci vals rr0 fuel t

/-- Initial state as specified: `p = r = rhs`, `solution = 0`, cached
`r·r = rhs·rhs`. -/
def cgInitSpec (N : ℕ) (rhs : List ℚ) : CGState :=
  let r := (List.range N).map (fun i => rhs.getD i 0)
  ⟨List.replicate N 0, r, r, dotN N r r, 0⟩

/-- The specification-side run. -/
def cgRunSpec (N : ℕ) (ro ci : List ℕ) (vals rhs : List ℚ) :
    Option (CGState × Bool) :=
  cgLoopSpec N ro ci vals (cgInitSpec N rhs).rr 10003 (cgInitSpec N rhs)

/-! ## ParallelScan: `scan_kernel_1/2/3` and `exclusive_scan`

The integer three-pass scan, launched by the host as
`scan_kernel_1<<<G, B>>>(X, Y, N, carries)`, `scan_kernel_2<<<1, G>>>(carries)`,
`scan_kernel_3<<<G, B>>>(Y, N, carries)` with `G = B = 256`.  Block `b` owns
the index window `[wpt*B*b, wpt*B*(b+1))` with `wpt = (N-1)/(G*B) + 1` work
items per thread, processed in `wpt` chunks of `B` consecutive indices; loads
outside `[0, N)` yield `0` and stores outside `[0, N)` are skipped.  (For
`N = 0` the C expression `(N-1)` wraps in 32-bit unsigned arithmetic, which
only changes the amount of idle looping: no index passes `i < N`, so the
observable output — the empty prefix — is unchanged and the model uses the
truncated `ℕ` subtraction.  Reads past the end of the device buffer `X` are
modelled as `0`; they only ever flow into outputs at positions `≥ X.length`.)
The int data travels through `double` shared buffers, exact for the values at
hand; the model keeps it in `ℤ`. -/

/-- Device load `(i < N) ? X[i] : 0`. -/
def loadX (X : List ℤ) (N i : ℕ) : ℤ :=
  if i < N then X.getD i 0 else 0

/-- One Hillis–Steele round: after the two barriers,
`if (threadIdx.x >= stride) my_value += shared_buffer[threadIdx.x - stride]`. -/
def hsRound (v : ℕ → ℤ) (stride : ℕ) : ℕ → ℤ :=
  fun t => if stride ≤ t then v (t - stride) + v t else v t

/-- The stride-doubling loop `for (stride = 1; stride < B; stride *= 2)`,
with explicit fuel (strides double, so `B` rounds of fuel always suffice). -/
def hsIter (B : ℕ) : ℕ → (ℕ → ℤ) → ℕ → ℕ → ℤ
  | 0, v, _ => v
  | fuel + 1, v, stride =>
    if stride < B then hsIter B fuel (hsRound v stride) (2 * stride) else v

/-- In-block inclusive Hillis–Steele scan over `B` lanes (the contents of
`shared_buffer` after the stride loop). -/
def inclScan (B : ℕ) (v : ℕ → ℤ) : ℕ → ℤ :=
  hsIter B B v 1

/-- `work_per_thread = (N - 1) / (gridDim.x * blockDim.x) + 1`. -/
def wpt (N G B : ℕ) : ℕ :=
  (N - 1) / (G * B) + 1

/-- `shared_buffer[B-1]` after a chunk's scan: the chunk's total, added onto
`block_offset` after each chunk. -/
def chunkTotal (X : List ℤ) (N base B : ℕ) : ℤ :=
  inclScan B (fun t => loadX X N (base + t)) (B - 1)

/-- The value `scan_kernel_1` stores to `Y[i]`: the running `block_offset`
accumulated over the owning block's earlier chunks, plus the exclusive
in-chunk value `(t > 0) ? shared_buffer[t-1] : 0`. -/
def scan1out (X : List ℤ) (N G B i : ℕ) : ℤ :=
  let W := wpt N G B * B
  let b := i / W
  let c := i % W / B
  let t := i % W % B
  (∑ k in Finset.range c, chunkTotal X N (W * b + k * B) B) +
    (if 0 < t then inclScan B (fun u => loadX X N (W * b + c * B + u)) (t - 1) else 0)

/-- `carries[b]` after `scan_kernel_1`: block `b`'s final `block_offset`,
the sum of all its chunk totals. -/
def blockCarry (X : List ℤ) (N G B b : ℕ) : ℤ :=
  ∑ k in Finset.range (wpt N G B), chunkTotal X N (wpt N G B * B * b + k * B) B

/-- `carries[b]` after `scan_kernel_2` (a single block of `G` threads runs the
same Hillis–Steele scan over the carries and shifts it to exclusive form). -/
def scannedCarry (X : List ℤ) (N G B b : ℕ) : ℤ :=
  if 0 < b then inclScan G (blockCarry X N G B) (b - 1) else 0

/-- `Y[i]` after `scan_kernel_3` added `carries[blockIdx.x]` to every element
of the block's window. -/
def scanOut (X : List ℤ) (N G B i : ℕ) : ℤ :=
  scan1out X N G B i + scannedCarry X N G B (i / (wpt N G B * B))

/-- Host `exclusive_scan(input, output, N)` with grid configuration `(G, B)`
(the program fixes `num_blocks = threads_per_block = 256`): the first `N`
entries of the output buffer. -/
def exclusive_scan (X : List ℤ) (N G B : ℕ) : List ℤ :=
  (List.range N).map (scanOut X N G B)

/-! ## StencilAssembler: `count_nnz`, `assembleA`, `solve_system` -/

/-- Per-row nonzero count computed by `count_nnz` for the n×n Poisson grid:
row `row` has `i = row / n`, `j = row % n`, one diagonal entry, and one entry
per existing bottom/left/right/top neighbor. -/
def countRow (n row : ℕ) : ℤ :=
  1 + (if 0 < row / n then 1 else 0) + (if 0 < row % n then 1 else 0) +
    (if row / n < n - 1 then 1 else 0) + (if row % n < n - 1 then 1 else 0)

/-- `count_nnz<<<...>>>(buf, n)`: the grid-stride loop writes `countRow` for
every `row < n*n`, each row owned by one thread. -/
def count_nnz (n : ℕ) : List ℤ :=
  (List.range (n * n)).map (countRow n)

/-- The row-offsets array produced in `main`:
`exclusive_scan(cuda_nnz, cuda_row_offsets, N*N + 1)` over the `n*n` counts.
Logically it has `n*n + 1` entries `0, c_0, c_0+c_1, ..., nnz_total` — the
final one is written one past the end of the `n*n`-int device buffer. -/
def row_offsets_poisson (n : ℕ) : List ℤ :=
  exclusive_scan (count_nnz n) (n * n + 1) 256 256

/-- The total `solve_system` actually uses to size `col_indices` and `values`:
`int nnz_total = csr_rowoffsets[N - 1];` with `N = n*n` — the offset of the
last row, not the trailing total at logical index `N`. -/
def solve_system_nnz (n : ℕ) : ℤ :=
  (row_offsets_poisson n).getD (n * n - 1) 0

/-- The writes `(position, column, value)` that `assembleA` emits for one row,
threading the cursor `this_row_offset` exactly as the kernel does: diagonal
first, then `-1` entries guarded by `i > 0`, `j > 0`, `i < n-1`, `j < n-1`. -/
def assembleRow (n row start : ℕ) : List (ℕ × ℕ × ℚ) :=
  let i := row / n
  let j := row % n
  let w0 := [(start, i * n + j, (4 : ℚ))]
  let c0 := start + 1
  let w1 := if 0 < i then w0 ++ [(c0, (i - 1) * n + j, (-1 : ℚ))] else w0
  let c1 := if 0 < i then c0 + 1 else c0
  let w2 := if 0 < j then w1 ++ [(c1, i * n + (j - 1), (-1 : ℚ))] else w1
  let c2 := if 0 < j then c1 + 1 else c1
  let w3 := if i < n - 1 then w2 ++ [(c2, (i + 1) * n + j, (-1 : ℚ))] else w2
  let c3 := if i < n - 1 then c2 + 1 else c2
  if j < n - 1 then w3 ++ [(c3, i * n + (j + 1), (-1 : ℚ))] else w3

/-- `assembleA<<<...>>>(row_offsets, col_indices, values, n)`: every row
`row < n*n` is processed once, with write cursor starting at
`row_offsets[row]`. -/
def assembleA (n : ℕ) (ro : List ℕ) : List (List (ℕ × ℕ × ℚ)) :=
  (List.range (n * n)).map (fun row => assembleRow n row (ro.getD row 0))

/-- The neighbor columns of `row` that exist, in the fixed order bottom, left,
right, top (as the specification lists them). -/
def neighborCols (n row : ℕ) : List ℕ :=
  let i := row / n
  let j := row % n
  (if 0 < i then [(i - 1) * n + j] else []) ++
    (if 0 < j then [i * n + (j - 1)] else []) ++
      (if i < n - 1 then [(i + 1) * n + j] else []) ++
        (if j < n - 1 then [i * n + (j + 1)] else [])

/-- Attach consecutive write positions to a list of entries, advancing the
cursor by one after each write. -/
def withPositions : ℕ → List (ℕ × ℚ) → List (ℕ × ℕ × ℚ)
  | _, [] => []
  | start, e :: es => (start, e) :: withPositions (start + 1) es

/-- A row's writes as the specification states them: the diagonal entry
(value 4, column = the row's own linear index) first, then a `-1` entry per
existing neighbor in the fixed order, at consecutive positions from `start`. -/
def assembleRowSpec (n row start : ℕ) : List (ℕ × ℕ × ℚ) :=
  withPositions start
    ((row, (4 : ℚ)) :: (neighborCols n row).map (fun c => (c, (-1 : ℚ))))

/-! ## Helper lemmas -/

/-- Indexing a mapped range: `((range N).map f).getD i d = f i` for `i < N`. -/
theorem getD_map_range {α : Type} (f : ℕ → α) (d : α) {i N : ℕ} (h : i < N) :
    ((List.range N).map f).getD i d = f i := by
  simp [List.getD_eq_getElem?_getD, List.getElem?_map, List.getElem?_range h]

/-- Summing consecutive same-length windows tiles an interval. -/
theorem sum_chunks {M : Type} [AddCommMonoid M] (g : ℕ → M) (a B : ℕ) :
    ∀ c, (∑ k in Finset.range c, ∑ j in Finset.Ico (a + k * B) (a + k * B + B), g j)
      = ∑ u in Finset.Ico a (a + c * B), g u := by
  intro c
  induction c with
  | zero => simp
  | succ c ih =>
    rw [Finset.sum_range_succ, ih,
      Finset.sum_Ico_consecutive g (Nat.le_add_right a (c * B)) (Nat.le_add_right _ B)]
    have hb : a + c * B + B = a + (c + 1) * B := by ring
    rw [hb]

/-- Splitting a doubled range in half. -/
theorem sum_range_double (s : ℕ → ℚ) (a : ℕ) :
    ∑ t in Finset.range (a + a), s t
      = (∑ t in Finset.range a, s t) + ∑ t in Finset.range a, s (a + t) := by
  have h := Finset.sum_Ico_consecutive s (Nat.zero_le a) (Nat.le_add_right a a)
  rw [← Finset.range_eq_Ico] at h
  rw [← h, Finset.sum_Ico_eq_sum_range]
  congr 1
  simp

/-- The in-block tree reduction leaves the sum of all `2 ^ m` lanes in lane 0. -/
theorem treeReduce_zero_sum : ∀ (m : ℕ) (s : ℕ → ℚ),
    treeReduce m s 0 = ∑ t in Finset.range (2 ^ m), s t := by
  intro m
  induction m with
  | zero => intro s; simp [treeReduce]
  | succ m ih =>
    intro s
    have hT : treeReduce (m + 1) s 0 = treeReduce m (reduceStep s (2 ^ m)) 0 := rfl
    rw [hT, ih]
    have h2 : ∑ t in Finset.range (2 ^ (m + 1)), s t
        = (∑ t in Finset.range (2 ^ m), s t) + ∑ t in Finset.range (2 ^ m), s (2 ^ m + t) := by
      have hp : (2 : ℕ) ^ (m + 1) = 2 ^ m + 2 ^ m := by ring
      rw [hp, sum_range_double]
    rw [h2, ← Finset.sum_add_distrib]
    refine Finset.sum_congr rfl ?_
    intro t ht
    rw [Finset.mem_range] at ht
    simp [reduceStep, ht, add_comm]

/-- The grid-stride per-thread sums over all `M` residues partition the inner
product. -/
theorem sum_threadDot (N : ℕ) (x y : List ℚ) {M : ℕ} (hM : 0 < M) :
    ∑ r in Finset.range M, threadDot N x y M r = dotN N x y := by
  unfold threadDot dotN
  exact Finset.sum_fiberwise_of_maps_to (fun i _ => Finset.mem_range.mpr (Nat.mod_lt i hM)) _

/-- A block's reduced sum is the sum of its threads' partial sums. -/
theorem blockDot_eq (N : ℕ) (x y : List ℚ) (G m b : ℕ) :
    blockDot N x y G m b
      = ∑ t in Finset.range (2 ^ m), threadDot N x y (G * 2 ^ m) (b * 2 ^ m + t) :=
  treeReduce_zero_sum m _

/-- `cuda_dot_product` adds the exact inner product onto `result`. -/
theorem cuda_dot_eval (N : ℕ) (x y : List ℚ) (result : ℚ) {G : ℕ} (m : ℕ) (hG : 0 < G) :
    cuda_dot_product N x y result G m = result + dotN N x y := by
  unfold cuda_dot_product
  congr 1
  have h1 : ∀ b, blockDot N x y G m b
      = ∑ j in Finset.Ico (0 + b * 2 ^ m) (0 + b * 2 ^ m + 2 ^ m),
          threadDot N x y (G * 2 ^ m) j := by
    intro b
    rw [blockDot_eq, Finset.sum_Ico_eq_sum_range]
    simp
  calc ∑ b in Finset.range G, blockDot N x y G m b
      = ∑ b in Finset.range G, ∑ j in Finset.Ico (0 + b * 2 ^ m) (0 + b * 2 ^ m + 2 ^ m),
          threadDot N x y (G * 2 ^ m) j := Finset.sum_congr rfl (fun b _ => h1 b)
    _ = ∑ j in Finset.Ico 0 (0 + G * 2 ^ m), threadDot N x y (G * 2 ^ m) j :=
        sum_chunks (threadDot N x y (G * 2 ^ m)) 0 (2 ^ m) G
    _ = dotN N x y := by
        rw [zero_add, ← Finset.range_eq_Ico]
        exact sum_threadDot N x y (Nat.mul_pos hG (pow_pos (by norm_num) m))

/-- The dot-product launch configuration used throughout the program. -/
theorem cuda_dot_512 (N : ℕ) (x y : List ℚ) (result : ℚ) :
    cuda_dot_product N x y result 512 9 = result + dotN N x y :=
  cuda_dot_eval N x y result 9 (by norm_num)

/-- The row loop of the CSR matvec accumulates exactly the window sum. -/
theorem csrRowLoop_sum (ci : List ℕ) (vals x : List ℚ) :
    ∀ (cnt k : ℕ) (acc : ℚ), csrRowLoop ci vals x cnt k acc
      = acc + ∑ j in Finset.range cnt, vals.getD (k + j) 0 * x.getD (ci.getD (k + j) 0) 0 := by
  intro cnt
  induction cnt with
  | zero => intro k acc; simp [csrRowLoop]
  | succ cnt ih =>
    intro k acc
    rw [csrRowLoop, ih]
    simp only [Finset.sum_range_succ']
    have hc : ∑ j in Finset.range cnt,
        vals.getD (k + (j + 1)) 0 * x.getD (ci.getD (k + (j + 1)) 0) 0
        = ∑ j in Finset.range cnt,
            vals.getD (k + 1 + j) 0 * x.getD (ci.getD (k + 1 + j) 0) 0 :=
      Finset.sum_congr rfl (fun j _ => by rw [show k + (j + 1) = k + 1 + j from by omega])
    rw [hc]
    simp only [Nat.add_zero]
    abel

/-- The matvec kernel computes the specified per-row window sums. -/
theorem matvec_eq_spec (N : ℕ) (ro ci : List ℕ) (vals x : List ℚ) :
    cuda_csr_matvec_product N ro ci vals x = matvecSpec N ro ci vals x := by
  unfold cuda_csr_matvec_product matvecSpec
  refine List.map_congr_left ?_
  intro i _
  rw [csrRowLoop_sum, csrRowSum, Finset.sum_Ico_eq_sum_range, zero_add]

/-- One pass of the implemented loop body is one step of the specified CG
recurrence. -/
theorem cgBody_eq_spec (N : ℕ) (ro ci : List ℕ) (vals : List ℚ) (rr0 : ℚ)
    (s : CGState) : cgBody N ro ci vals rr0 s = cgStepSpec N ro ci vals rr0 s := by
  unfold cgBody cgStepSpec
  simp only [matvec_eq_spec, cuda_dot_512, zero_add, cuda_vecadd, cuda_vecadd2,
    sub_eq_add_neg, neg_mul]

/-- The implemented initial state is the specified one. -/
theorem cgInit_eq_spec (N : ℕ) (rhs solution : List ℚ) :
    cgInit N rhs solution = cgInitSpec N rhs := by
  unfold cgInit cgInitSpec
  simp only [cuda_dot_512, zero_add]
  have hz : ∀ i : ℕ, (solution.map (fun _ => (0 : ℚ))).getD i 0 = 0 := by
    intro i
    simp only [List.getD_eq_getElem?_getD, List.getElem?_map]
    cases solution[i]? <;> simp
  congr 1
  simp only [hz]
  simp [List.map_const']

/-- The implemented loop runs the specified recurrence. -/
theorem cgLoop_eq_spec (N : ℕ) (ro ci : List ℕ) (vals : List ℚ) (rr0 : ℚ) :
    ∀ (fuel : ℕ) (s : CGState),
      cgLoop N ro ci vals rr0 fuel s = cgLoopSpec N ro ci vals rr0 fuel s := by
  intro fuel
  induction fuel with
  | zero => intro s; rfl
  | succ fuel ih =>
    intro s
    rw [cgLoop, cgLoopSpec, cgBody_eq_spec]
    rcases cgStepSpec N ro ci vals rr0 s with ⟨t, ob⟩
    cases ob <;> simp [ih]

/-- The implemented run is the specified run. -/
theorem cgRun_eq_spec (N : ℕ) (ro ci : List ℕ) (vals rhs solution : List ℚ) :
    cgRun N ro ci vals rhs solution = cgRunSpec N ro ci vals rhs := by
  unfold cgRun cgRunSpec
  rw [cgInit_eq_spec, cgLoop_eq_spec]

/-- Case analysis of one pass through the loop body: convergence break,
iteration-cap break, or continue with `iters` incremented. -/
theorem cgBody_cases (N : ℕ) (ro ci : List ℕ) (vals : List ℚ) (rr0 : ℚ) (s : CGState) :
    (∃ t, cgBody N ro ci vals rr0 s = (t, some true)
        ∧ t.rr * 1000000000000 < rr0 ∧ t.iters = s.iters) ∨
    (∃ t, cgBody N ro ci vals rr0 s = (t, some false)
        ∧ ¬ t.rr * 1000000000000 < rr0 ∧ t.iters = s.iters ∧ 10000 < s.iters) ∨
    (∃ t, cgBody N ro ci vals rr0 s = (t, none)
        ∧ t.iters = s.iters + 1 ∧ ¬ 10000 < s.iters) := by
  simp only [cgBody]
  split_ifs with h1 h2
  · exact Or.inl ⟨_, rfl, h1, rfl⟩
  · exact Or.inr (Or.inl ⟨_, rfl, h1, rfl, h2⟩)
  · exact Or.inr (Or.inr ⟨_, rfl, rfl, h2⟩)

/-- The loop reaches a `break` within `10002 - iters + 1` passes. -/
theorem cgLoop_terminates (N : ℕ) (ro ci : List ℕ) (vals : List ℚ) (rr0 : ℚ) :
    ∀ (fuel : ℕ) (s : CGState), 10002 - s.iters < fuel →
      ∃ t b, cgLoop N ro ci vals rr0 fuel s = some (t, b) := by
  intro fuel
  induction fuel with
  | zero => intro s h; omega
  | succ fuel ih =>
    intro s h
    rcases cgBody_cases N ro ci vals rr0 s with ⟨t, ht, -⟩ | ⟨t, ht, -⟩ | ⟨t, ht, hit, hcap⟩
    · exact ⟨t, true, by simp only [cgLoop, ht]⟩
    · exact ⟨t, false, by simp only [cgLoop, ht]⟩
    · have hf : 10002 - t.iters < fuel := by omega
      rcases ih t hf with ⟨u, b, hu⟩
      exact ⟨u, b, by simp only [cgLoop, ht]; exact hu⟩

/-- At loop exit, flag `true` means the residual test passed and flag `false`
means the test failed while the iteration count exceeded 10000. -/
theorem cgLoop_exit (N : ℕ) (ro ci : List ℕ) (vals : List ℚ) (rr0 : ℚ) :
    ∀ (fuel : ℕ) (s t : CGState) (b : Bool),
      cgLoop N ro ci vals rr0 fuel s = some (t, b) →
      (b = true ∧ t.rr * 1000000000000 < rr0) ∨
        (b = false ∧ ¬ t.rr * 1000000000000 < rr0 ∧ 10000 < t.iters) := by
  intro fuel
  induction fuel with
  | zero => intro s t b h; exact absurd h (by simp [cgLoop])
  | succ fuel ih =>
    intro s t b h
    rcases cgBody_cases N ro ci vals rr0 s with ⟨u, hu, hc, -⟩ | ⟨u, hu, hc, hi, hcap⟩
      | ⟨u, hu, -, -⟩
    · simp only [cgLoop, hu, Option.some.injEq, Prod.mk.injEq] at h
      obtain ⟨rfl, rfl⟩ := h
      exact Or.inl ⟨rfl, hc⟩
    · simp only [cgLoop, hu, Option.some.injEq, Prod.mk.injEq] at h
      obtain ⟨rfl, rfl⟩ := h
      exact Or.inr ⟨rfl, hc, by omega⟩
    · simp only [cgLoop, hu] at h
      exact ih u t b h

/-! ## Claim theorems: solver and kernels -/

/-- C1: the `conjugate_gradient` loop computes exactly the CG recurrence.
Starting state is `p = r = rhs`, `solution = 0` with the initial `r·r`
cached; each iteration computes `Ap = A·p`, `alpha = (r·r)/(p·Ap)` where
`r·r` is the cached value from the previous iteration (not recomputed),
then `solution += alpha·p` and `r -= alpha·Ap`, then the new `r·r`, and on
non-termination `beta = new_r·r/old_r·r` and `p = r + beta·p`.  The
implemented body (`cgBody`, assembled from the kernels) equals the
recurrence step (`cgStepSpec`), and the implemented initial state equals
the specified one; the equality of the `rr` components states that the
cache always holds the true `r·r` of the current residual. -/
theorem cg_follows_recurrence (N : ℕ) (ro ci : List ℕ)
    (vals rhs solution : List ℚ) (rr0 : ℚ) (s : CGState) :
    cgInit N rhs solution = cgInitSpec N rhs ∧
      cgBody N ro ci vals rr0 s = cgStepSpec N ro ci vals rr0 s :=
  ⟨cgInit_eq_spec N rhs solution, cgBody_eq_spec N ro ci vals rr0 s⟩

/-- The returned solution buffer is the terminal state's solution. -/
theorem conjugate_gradient_of_run (N : ℕ) (ro ci : List ℕ)
    (vals rhs solution : List ℚ) (t : CGState) (b : Bool)
    (h : cgRun N ro ci vals rhs solution = some (t, b)) :
    conjugate_gradient N ro ci vals rhs solution = t.sol := by
  unfold conjugate_gradient
  rw [h]

/-- C4: for every input the `conjugate_gradient` loop terminates, exiting
with flag `true` when the (squared, normalized) residual test
`sqrt(new_r·r / initial_r·r) < 1e-6` holds, and otherwise with flag `false`
once the iteration count exceeds 10000; in both terminal states the final
solution vector is the one written back to the caller. -/
theorem conjugate_gradient_terminates (N : ℕ) (ro ci : List ℕ)
    (vals rhs solution : List ℚ) :
    ∃ (t : CGState) (b : Bool),
      cgRun N ro ci vals rhs solution = some (t, b) ∧
      conjugate_gradient N ro ci vals rhs solution = t.sol ∧
      ((b = true ∧ t.rr * 1000000000000 < (cgInit N rhs solution).rr) ∨
        (b = false ∧ ¬ t.rr * 1000000000000 < (cgInit N rhs solution).rr ∧
          10000 < t.iters)) := by
  obtain ⟨t, b, h⟩ := cgLoop_terminates N ro ci vals (cgInit N rhs solution).rr
    10003 (cgInit N rhs solution) (by show 10002 - (0 : ℕ) < 10003; norm_num)
  have h' : cgRun N ro ci vals rhs solution = some (t, b) := h
  exact ⟨t, b, h', conjugate_gradient_of_run N ro ci vals rhs solution t b h',
    cgLoop_exit N ro ci vals (cgInit N rhs solution).rr 10003 _ t b h⟩

/-- C4 witness: a concrete instantiation of the termination theorem. -/
theorem conjugate_gradient_terminates_witness :
    ∃ (t : CGState) (b : Bool),
      cgRun 1 [0, 1] [0] [1] [1] [0] = some (t, b) ∧
      conjugate_gradient 1 [0, 1] [0] [1] [1] [0] = t.sol ∧
      ((b = true ∧ t.rr * 1000000000000 < (cgInit 1 [1] [0]).rr) ∨
        (b = false ∧ ¬ t.rr * 1000000000000 < (cgInit 1 [1] [0]).rr ∧
          10000 < t.iters)) :=
  conjugate_gradient_terminates 1 [0, 1] [0] [1] [1] [0]

/-- C10: `conjugate_gradient` zeroes the solution vector at entry
(`std::fill`), so its result does not depend on the prior contents of the
caller's solution buffer. -/
theorem cg_independent_of_initial_solution (N : ℕ) (ro ci : List ℕ)
    (vals rhs s1 s2 : List ℚ) :
    conjugate_gradient N ro ci vals rhs s1 = conjugate_gradient N ro ci vals rhs s2 := by
  unfold conjugate_gradient cgRun
  rw [cgInit_eq_spec N rhs s1, cgInit_eq_spec N rhs s2]

/-- C6: for any initial `result` value, `cuda_dot_product` adds the exact
inner product `∑ x[i]·y[i]` onto `result` (it does not clear it); under the
precondition `result = 0` the final value is exactly the inner product,
independently of the per-block accumulation order (exact arithmetic). -/
theorem cuda_dot_product_accumulates (N : ℕ) (x y : List ℚ) (result : ℚ)
    (G m : ℕ) (hG : 0 < G) :
    cuda_dot_product N x y result G m = result + dotN N x y ∧
      (result = 0 → cuda_dot_product N x y result G m = dotN N x y) := by
  refine ⟨cuda_dot_eval N x y result m hG, fun h => ?_⟩
  rw [cuda_dot_eval N x y result m hG, h, zero_add]

/-- C6 witness: the launch configuration of the program, concrete vectors. -/
theorem cuda_dot_product_accumulates_witness :
    cuda_dot_product 2 [3, 4] [5, 6] 7 512 9 = 7 + dotN 2 [3, 4] [5, 6] ∧
      ((7 : ℚ) = 0 → cuda_dot_product 2 [3, 4] [5, 6] 7 512 9 = dotN 2 [3, 4] [5, 6]) :=
  cuda_dot_product_accumulates 2 [3, 4] [5, 6] 7 512 9 (by decide)

/-- C7: `cuda_csr_matvec_product` writes, for every row `i < N`, exactly
`y[i] = ∑ values[k]·x[col_indices[k]]` over `k ∈ [row_offsets[i],
row_offsets[i+1])`, one output entry per row. -/
theorem csr_matvec_rows (N : ℕ) (ro ci : List ℕ) (vals x : List ℚ) :
    (cuda_csr_matvec_product N ro ci vals x).length = N ∧
      ∀ i, i < N → (cuda_csr_matvec_product N ro ci vals x).getD i 0
        = csrRowSum ro ci vals x i := by
  constructor
  · simp [cuda_csr_matvec_product]
  · intro i hi
    rw [matvec_eq_spec]
    unfold matvecSpec
    exact getD_map_range _ 0 hi

/-- C7 witness: concrete 2×2 CSR matrix. -/
theorem csr_matvec_rows_witness :
    (cuda_csr_matvec_product 2 [0, 1, 2] [0, 1] [5, 7] [2, 3]).getD 1 0
      = csrRowSum [0, 1, 2] [0, 1] [5, 7] [2, 3] 1 :=
  (csr_matvec_rows 2 [0, 1, 2] [0, 1] [5, 7] [2, 3]).2 1 (by decide)

/-- Unfolding step for the specified loop at a `break`. -/
theorem cgLoopSpec_break (N : ℕ) (ro ci : List ℕ) (vals : List ℚ) (rr0 : ℚ)
    (fuel : ℕ) (s t : CGState) (b : Bool)
    (h : cgStepSpec N ro ci vals rr0 s = (t, some b)) :
    cgLoopSpec N ro ci vals rr0 (fuel + 1) s = some (t, b) := by
  simp only [cgLoopSpec, h]

/-- Unfolding step for the specified loop when it continues. -/
theorem cgLoopSpec_cont (N : ℕ) (ro ci : List ℕ) (vals : List ℚ) (rr0 : ℚ)
    (fuel : ℕ) (s t : CGState)
    (h : cgStepSpec N ro ci vals rr0 s = (t, none)) :
    cgLoopSpec N ro ci vals rr0 (fuel + 1) s = cgLoopSpec N ro ci vals rr0 fuel t := by
  simp only [cgLoopSpec, h]

theorem getD_c0 {α : Type} (a : α) (l : List α) (d : α) : (a :: l).getD 0 d = a := rfl

theorem getD_c1 {α : Type} (a b : α) (l : List α) (d : α) :
    (a :: b :: l).getD 1 d = b := rfl

theorem getD_c2 {α : Type} (a b c : α) (l : List α) (d : α) :
    (a :: b :: c :: l).getD 2 d = c := rfl

theorem range_two : List.range 2 = [0, 1] := rfl

/-- Identity system, `rhs = (1,1)`: the first step already converges, with
solution `(1,1)` and the iteration counter still `0`. -/
theorem runA_step1 : cgStepSpec 2 [0, 1, 2] [0, 1] [1, 1] 2 ⟨[0, 0], [1, 1], [1, 1], 2, 0⟩
    = (⟨[1, 1], [0, 0], [1, 1], 0, 0⟩, some true) := by
  unfold cgStepSpec matvecSpec csrRowSum dotN
  norm_num [range_two, getD_c0, getD_c1, getD_c2, Finset.sum_range_succ,
    Finset.sum_Ico_eq_sum_range, CGState.mk.injEq]

theorem runA_init : cgInitSpec 2 [1, 1] = ⟨[0, 0], [1, 1], [1, 1], 2, 0⟩ := by
  unfold cgInitSpec dotN
  norm_num [range_two, getD_c0, getD_c1, Finset.sum_range_succ, CGState.mk.injEq,
    List.replicate]

theorem runA_eval : cgRunSpec 2 [0, 1, 2] [0, 1] [1, 1] [1, 1]
    = some (⟨[1, 1], [0, 0], [1, 1], 0, 0⟩, true) := by
  unfold cgRunSpec
  rw [runA_init]
  exact cgLoopSpec_break 2 [0, 1, 2] [0, 1] [1, 1] 2 10002 _ _ true runA_step1

/-- Diagonal system `diag(1,2)`, `rhs = (1,2)`: the first step does not yet
converge; `iters` is incremented to `1`. -/
theorem runB_step1 : cgStepSpec 2 [0, 1, 2] [0, 1] [1, 2] 5 ⟨[0, 0], [1, 2], [1, 2], 5, 0⟩
    = (⟨[5/9, 10/9], [4/9, -2/9], [40/81, -10/81], 20/81, 1⟩, none) := by
  unfold cgStepSpec matvecSpec csrRowSum dotN
  norm_num [range_two, getD_c0, getD_c1, getD_c2, Finset.sum_range_succ,
    Finset.sum_Ico_eq_sum_range, CGState.mk.injEq]

/-- The second step converges with solution `(1,1)`, `iters` still `1`. -/
theorem runB_step2 : cgStepSpec 2 [0, 1, 2] [0, 1] [1, 2] 5
      ⟨[5/9, 10/9], [4/9, -2/9], [40/81, -10/81], 20/81, 1⟩
    = (⟨[1, 1], [0, 0], [40/81, -10/81], 0, 1⟩, some true) := by
  unfold cgStepSpec matvecSpec csrRowSum dotN
  norm_num [range_two, getD_c0, getD_c1, getD_c2, Finset.sum_range_succ,
    Finset.sum_Ico_eq_sum_range, CGState.mk.injEq]

theorem runB_init : cgInitSpec 2 [1, 2] = ⟨[0, 0], [1, 2], [1, 2], 5, 0⟩ := by
  unfold cgInitSpec dotN
  norm_num [range_two, getD_c0, getD_c1, Finset.sum_range_succ, CGState.mk.injEq,
    List.replicate]

theorem runB_eval : cgRunSpec 2 [0, 1, 2] [0, 1] [1, 2] [1, 2]
    = some (⟨[1, 1], [0, 0], [40/81, -10/81], 0, 1⟩, true) := by
  unfold cgRunSpec
  rw [runB_init]
  exact (cgLoopSpec_cont 2 [0, 1, 2] [0, 1] [1, 2] 5 10002 _ _ runB_step1).trans
    (cgLoopSpec_break 2 [0, 1, 2] [0, 1] [1, 2] 5 10001 _ _ true runB_step2)

/-- The exit iteration counter, determined by the run. -/
theorem cgIters_of_run (N : ℕ) (ro ci : List ℕ) (vals rhs solution : List ℚ)
    (t : CGState) (b : Bool)
    (h : cgRun N ro ci vals rhs solution = some (t, b)) :
    cgIters N ro ci vals rhs solution = t.iters := by
  unfold cgIters
  rw [h]

/-- C5 counterexample: the claim says `conjugate_gradient` returns, besides
the solution vector, the iteration count and a converged flag.  The C
function returns `void`: its only caller-visible result is the solution
buffer.  Two concrete systems — the identity matrix with `rhs = (1,1)`, and
`diag(1,2)` with `rhs = (1,2)` — produce *identical* returned solutions
`(1,1)` while the solver exits with *different* iteration counts (0 and 1),
so no function of the returned values can yield the iteration count. -/
theorem cg_return_hides_iterations :
    conjugate_gradient 2 [0, 1, 2] [0, 1] [1, 1] [1, 1] [0, 0]
      = conjugate_gradient 2 [0, 1, 2] [0, 1] [1, 2] [1, 2] [0, 0] ∧
    cgIters 2 [0, 1, 2] [0, 1] [1, 1] [1, 1] [0, 0] = 0 ∧
    cgIters 2 [0, 1, 2] [0, 1] [1, 2] [1, 2] [0, 0] = 1 := by
  have hA : cgRun 2 [0, 1, 2] [0, 1] [1, 1] [1, 1] [0, 0]
      = some (⟨[1, 1], [0, 0], [1, 1], 0, 0⟩, true) :=
    (cgRun_eq_spec 2 [0, 1, 2] [0, 1] [1, 1] [1, 1] [0, 0]).trans runA_eval
  have hB : cgRun 2 [0, 1, 2] [0, 1] [1, 2] [1, 2] [0, 0]
      = some (⟨[1, 1], [0, 0], [40/81, -10/81], 0, 1⟩, true) :=
    (cgRun_eq_spec 2 [0, 1, 2] [0, 1] [1, 2] [1, 2] [0, 0]).trans runB_eval
  refine ⟨?_, ?_, ?_⟩
  · rw [conjugate_gradient_of_run 2 [0, 1, 2] [0, 1] [1, 1] [1, 1] [0, 0] _ true hA,
      conjugate_gradient_of_run 2 [0, 1, 2] [0, 1] [1, 2] [1, 2] [0, 0] _ true hB]
  · rw [cgIters_of_run 2 [0, 1, 2] [0, 1] [1, 1] [1, 1] [0, 0] _ true hA]
  · rw [cgIters_of_run 2 [0, 1, 2] [0, 1] [1, 2] [1, 2] [0, 0] _ true hB]

/-- C5 (amended): `conjugate_gradient` gives its caller only the solution
buffer; in both terminal states (converged or iteration-capped) the caller
receives the loop's final solution vector, while the iteration count and the
convergence status are only printed, not returned, and are not recoverable
from the returned values. -/
theorem cg_returns_solution_only (N : ℕ) (ro ci : List ℕ)
    (vals rhs solution : List ℚ) :
    ∃ (t : CGState) (b : Bool),
      cgRun N ro ci vals rhs solution = some (t, b) ∧
      conjugate_gradient N ro ci vals rhs solution = t.sol := by
  obtain ⟨t, b, h⟩ := cgLoop_terminates N ro ci vals (cgInit N rhs solution).rr
    10003 (cgInit N rhs solution) (by show 10002 - (0 : ℕ) < 10003; norm_num)
  have h' : cgRun N ro ci vals rhs solution = some (t, b) := h
  exact ⟨t, b, h', conjugate_gradient_of_run N ro ci vals rhs solution t b h'⟩

/-! ## Scan correctness -/

/-- Hillis–Steele invariant: if lane `t` holds the window sum of `f` over
`[t+1-stride, t+1)` and `stride * 2^fuel` covers `B`, then after the stride
loop lane `t < B` holds the inclusive prefix sum over `[0, t+1)`. -/
theorem hsIter_sum (B : ℕ) (f : ℕ → ℤ) :
    ∀ (fuel stride : ℕ) (v : ℕ → ℤ), 0 < stride → B ≤ stride * 2 ^ fuel →
      (∀ t, v t = ∑ j in Finset.Ico (t + 1 - stride) (t + 1), f j) →
      ∀ t, t < B → hsIter B fuel v stride t = ∑ j in Finset.range (t + 1), f j := by
  intro fuel
  induction fuel with
  | zero =>
    intro stride v hs hB hv t ht
    rw [pow_zero, Nat.mul_one] at hB
    rw [show hsIter B 0 v stride = v from rfl, hv t,
      show t + 1 - stride = 0 from by omega, ← Finset.range_eq_Ico]
  | succ fuel ih =>
    intro stride v hs hB hv t ht
    rw [show hsIter B (fuel + 1) v stride
      = if stride < B then hsIter B fuel (hsRound v stride) (2 * stride) else v from rfl]
    split_ifs with hlt
    · refine ih (2 * stride) (hsRound v stride) (by omega) ?_ ?_ t ht
      · have hp : stride * 2 ^ (fuel + 1) = 2 * stride * 2 ^ fuel := by ring
        rw [hp] at hB
        exact hB
      · intro u
        unfold hsRound
        split_ifs with hge
        · have hcat := Finset.sum_Ico_consecutive f
            (show u + 1 - 2 * stride ≤ u + 1 - stride from by omega)
            (show u + 1 - stride ≤ u + 1 from by omega)
          rw [hv (u - stride), hv u,
            show u - stride + 1 - stride = u + 1 - 2 * stride from by omega,
            show u - stride + 1 = u + 1 - stride from by omega]
          exact hcat
        · rw [hv u, show u + 1 - stride = 0 from by omega,
            show u + 1 - 2 * stride = 0 from by omega]
    · rw [hv t, show t + 1 - stride = 0 from by omega, ← Finset.range_eq_Ico]

/-- The in-block inclusive scan computes inclusive prefix sums. -/
theorem inclScan_sum (B : ℕ) (f : ℕ → ℤ) (t : ℕ) (ht : t < B) :
    inclScan B f t = ∑ j in Finset.range (t + 1), f j := by
  refine hsIter_sum B f B 1 f (by norm_num) ?_ ?_ t ht
  · rw [Nat.one_mul]
    exact Nat.le_of_lt (Nat.lt_two_pow B)
  · intro u
    rw [show u + 1 - 1 = u from by omega, Finset.sum_Ico_eq_sum_range]
    simp

/-- A chunk's total is the sum of its `B` loaded values. -/
theorem chunkTotal_eq (X : List ℤ) (N base B : ℕ) (hB : 0 < B) :
    chunkTotal X N base B = ∑ j in Finset.Ico base (base + B), loadX X N j := by
  unfold chunkTotal
  rw [inclScan_sum B _ (B - 1) (by omega), Finset.sum_Ico_eq_sum_range,
    show B - 1 + 1 = B from by omega, show base + B - base = B from by omega]

/-- `scan_kernel_1` writes at `i` the block-local exclusive prefix sum. -/
theorem scan1out_eq (X : List ℤ) (N G B i : ℕ) (hB : 0 < B) :
    scan1out X N G B i
      = ∑ j in Finset.Ico (wpt N G B * B * (i / (wpt N G B * B))) i, loadX X N j := by
  simp only [scan1out]
  have htB : i % (wpt N G B * B) % B < B := Nat.mod_lt _ hB
  have h2 : (∑ k in Finset.range (i % (wpt N G B * B) / B),
      chunkTotal X N (wpt N G B * B * (i / (wpt N G B * B)) + k * B) B)
      = ∑ j in Finset.Ico (wpt N G B * B * (i / (wpt N G B * B)))
          (wpt N G B * B * (i / (wpt N G B * B)) + i % (wpt N G B * B) / B * B),
          loadX X N j :=
    calc ∑ k in Finset.range (i % (wpt N G B * B) / B),
        chunkTotal X N (wpt N G B * B * (i / (wpt N G B * B)) + k * B) B
        = ∑ k in Finset.range (i % (wpt N G B * B) / B),
            ∑ j in Finset.Ico (wpt N G B * B * (i / (wpt N G B * B)) + k * B)
              (wpt N G B * B * (i / (wpt N G B * B)) + k * B + B), loadX X N j :=
          Finset.sum_congr rfl (fun k _ => chunkTotal_eq X N _ B hB)
      _ = _ := sum_chunks (loadX X N) _ B _
  have h3 : (if 0 < i % (wpt N G B * B) % B then
      inclScan B (fun u => loadX X N
        (wpt N G B * B * (i / (wpt N G B * B)) + i % (wpt N G B * B) / B * B + u))
        (i % (wpt N G B * B) % B - 1) else 0)
      = ∑ j in Finset.Ico
          (wpt N G B * B * (i / (wpt N G B * B)) + i % (wpt N G B * B) / B * B)
          (wpt N G B * B * (i / (wpt N G B * B)) + i % (wpt N G B * B) / B * B
            + i % (wpt N G B * B) % B), loadX X N j := by
    split_ifs with h0
    · rw [inclScan_sum B _ (i % (wpt N G B * B) % B - 1)
          (lt_of_le_of_lt (Nat.sub_le _ 1) htB),
        Finset.sum_Ico_eq_sum_range,
        show i % (wpt N G B * B) % B - 1 + 1 = i % (wpt N G B * B) % B from by omega,
        Nat.add_sub_cancel_left]
    · rw [show i % (wpt N G B * B) % B = 0 from by omega]
      simp
  rw [h2, h3, Finset.sum_Ico_consecutive (loadX X N) (Nat.le_add_right _ _)
    (Nat.le_add_right _ _)]
  have hiW := Nat.div_add_mod i (wpt N G B * B)
  have hmodW := Nat.div_add_mod' (i % (wpt N G B * B)) B
  have hend : wpt N G B * B * (i / (wpt N G B * B)) + i % (wpt N G B * B) / B * B
      + i % (wpt N G B * B) % B = i := by omega
  rw [hend]

/-- Block `b`'s carry is the sum of the loads over its whole index window. -/
theorem blockCarry_eq (X : List ℤ) (N G B b : ℕ) (hB : 0 < B) :
    blockCarry X N G B b
      = ∑ j in Finset.Ico (wpt N G B * B * b) (wpt N G B * B * b + wpt N G B * B),
          loadX X N j := by
  unfold blockCarry
  calc ∑ k in Finset.range (wpt N G B), chunkTotal X N (wpt N G B * B * b + k * B) B
      = ∑ k in Finset.range (wpt N G B),
          ∑ j in Finset.Ico (wpt N G B * B * b + k * B)
            (wpt N G B * B * b + k * B + B), loadX X N j :=
        Finset.sum_congr rfl (fun k _ => chunkTotal_eq X N _ B hB)
    _ = _ := sum_chunks (loadX X N) _ B _

/-- After `scan_kernel_2`, `carries[b]` is the sum of all loads before block
`b`'s window. -/
theorem scannedCarry_eq (X : List ℤ) (N G B b : ℕ) (hB : 0 < B) (hbG : b ≤ G) :
    scannedCarry X N G B b
      = ∑ j in Finset.Ico 0 (wpt N G B * B * b), loadX X N j := by
  unfold scannedCarry
  split_ifs with h0
  · rw [inclScan_sum G _ (b - 1) (by omega), show b - 1 + 1 = b from by omega]
    calc ∑ k in Finset.range b, blockCarry X N G B k
        = ∑ k in Finset.range b,
            ∑ j in Finset.Ico (0 + k * (wpt N G B * B))
              (0 + k * (wpt N G B * B) + wpt N G B * B), loadX X N j := by
          refine Finset.sum_congr rfl ?_
          intro k _
          rw [blockCarry_eq X N G B k hB,
            show (0 : ℕ) + k * (wpt N G B * B) = wpt N G B * B * k from by ring]
      _ = ∑ j in Finset.Ico 0 (0 + b * (wpt N G B * B)), loadX X N j :=
          sum_chunks (loadX X N) 0 (wpt N G B * B) b
      _ = _ := by rw [Nat.zero_add, Nat.mul_comm b (wpt N G B * B)]
  · rw [show b = 0 from by omega]
    simp

/-- The block windows cover `[0, N)`. -/
theorem wpt_covers (N G B : ℕ) (hG : 0 < G) (hB : 0 < B) :
    N ≤ wpt N G B * B * G := by
  unfold wpt
  rcases Nat.eq_zero_or_pos N with h | h
  · omega
  · have hM : 0 < G * B := Nat.mul_pos hG hB
    have hdm := Nat.div_add_mod (N - 1) (G * B)
    have hmod : (N - 1) % (G * B) < G * B := Nat.mod_lt _ hM
    have key : N ≤ G * B * ((N - 1) / (G * B) + 1) := by
      calc N = G * B * ((N - 1) / (G * B)) + (N - 1) % (G * B) + 1 := by omega
        _ ≤ G * B * ((N - 1) / (G * B)) + G * B := by omega
        _ = G * B * ((N - 1) / (G * B) + 1) := by ring
    calc N ≤ G * B * ((N - 1) / (G * B) + 1) := key
      _ = ((N - 1) / (G * B) + 1) * B * G := by ring

/-- Pointwise scan correctness: position `i < N` receives the exclusive
prefix sum of the loaded values. -/
theorem scanOut_eq (X : List ℤ) (N G B i : ℕ) (hG : 0 < G) (hB : 0 < B)
    (hi : i < N) : scanOut X N G B i = ∑ j in Finset.range i, loadX X N j := by
  unfold scanOut
  have hWpos : 0 < wpt N G B * B := Nat.mul_pos (Nat.succ_pos _) hB
  have hbG : i / (wpt N G B * B) ≤ G := by
    have hcov := wpt_covers N G B hG hB
    have h1 : i < G * (wpt N G B * B) := by
      calc i < N := hi
        _ ≤ wpt N G B * B * G := hcov
        _ = G * (wpt N G B * B) := by ring
    exact Nat.le_of_lt ((Nat.div_lt_iff_lt_mul hWpos).mpr h1)
  rw [scan1out_eq X N G B i hB, scannedCarry_eq X N G B _ hB hbG, add_comm]
  have hle : wpt N G B * B * (i / (wpt N G B * B)) ≤ i := by
    rw [Nat.mul_comm]
    exact Nat.div_mul_le_self i _
  rw [Finset.sum_Ico_consecutive (loadX X N) (Nat.zero_le _) hle,
    ← Finset.range_eq_Ico]

/-- The whole scan output equals the exclusive prefix sums of the loads, for
any positive configuration. -/
theorem exclusive_scan_spec (X : List ℤ) (N G B : ℕ) (hG : 0 < G) (hB : 0 < B) :
    exclusive_scan X N G B
      = (List.range N).map (fun i => ∑ j in Finset.range i, loadX X N j) := by
  unfold exclusive_scan
  refine List.map_congr_left ?_
  intro i hi
  exact scanOut_eq X N G B i hG hB (by simpa using hi)

/-- C2: with the host configuration `num_blocks = threads_per_block = 256`
(within the documented block-capacity limit), `exclusive_scan` over an input
of length `N` yields an output of length `N` with `output[i] = ∑ input[0..i-1]`
for every `i < N` (so `output[0] = 0`); in particular `N = 0` yields the empty
output and `N = 1` yields `[0]`. -/
theorem exclusive_scan_correct (X : List ℤ) :
    (exclusive_scan X X.length 256 256).length = X.length ∧
      (∀ i, i < X.length → (exclusive_scan X X.length 256 256).getD i 0
        = ∑ j in Finset.range i, X.getD j 0) ∧
      exclusive_scan ([] : List ℤ) 0 256 256 = [] ∧
      (∀ z : ℤ, exclusive_scan [z] 1 256 256 = [0]) := by
  refine ⟨by simp [exclusive_scan], ?_, rfl, ?_⟩
  · intro i hi
    rw [exclusive_scan_spec X X.length 256 256 (by norm_num) (by norm_num),
      getD_map_range _ 0 hi]
    refine Finset.sum_congr rfl ?_
    intro j hj
    rw [Finset.mem_range] at hj
    unfold loadX
    rw [if_pos (by omega)]
  · intro z
    rw [exclusive_scan_spec [z] 1 256 256 (by norm_num) (by norm_num)]
    rw [show List.range 1 = [0] from rfl, List.map_cons, List.map_nil,
      Finset.range_zero, Finset.sum_empty]

/-- C2 witness: instantiation at a concrete input and index. -/
theorem exclusive_scan_correct_witness :
    (exclusive_scan [5, 7] ([5, 7] : List ℤ).length 256 256).getD 1 0
      = ∑ j in Finset.range 1, ([5, 7] : List ℤ).getD j 0 :=
  (exclusive_scan_correct [5, 7]).2.1 1 (by decide)

/-- C9: for every input and length `N ≥ 0` (`N` need not be a multiple of the
partition size), the scan output is the same for every choice of positive
`num_blocks`/`threads_per_block`: two runs with different valid
configurations produce identical outputs. -/
theorem scan_config_independent (X : List ℤ) (N G1 B1 G2 B2 : ℕ)
    (h1 : 0 < G1) (h2 : 0 < B1) (h3 : 0 < G2) (h4 : 0 < B2) :
    exclusive_scan X N G1 B1 = exclusive_scan X N G2 B2 := by
  rw [exclusive_scan_spec X N G1 B1 h1 h2, exclusive_scan_spec X N G2 B2 h3 h4]

/-- C9 witness: a length not divisible by either partition size. -/
theorem scan_config_independent_witness :
    exclusive_scan [3, 1, 4, 1, 5] 5 2 2 = exclusive_scan [3, 1, 4, 1, 5] 5 256 256 :=
  scan_config_independent [3, 1, 4, 1, 5] 5 2 2 256 256
    (by decide) (by decide) (by decide) (by decide)

/-- The kernel's cursor-threaded emission equals the specified emission. -/
theorem assembleRow_eq_spec (n row start : ℕ) :
    assembleRow n row start = assembleRowSpec n row start := by
  have hd : row / n * n + row % n = row := Nat.div_add_mod' row n
  simp only [assembleRow, assembleRowSpec, neighborCols]
  split_ifs <;> simp [withPositions, hd]

/-- C8: for every row of the assembled n×n Poisson matrix, the fill phase
emits, starting at write cursor `row_offsets[row]`, first the diagonal entry
(value 4, column = the row's own linear index), then a `-1` entry at the
neighbor's linear index for each existing neighbor in the fixed order
bottom, left, right, top, advancing the cursor by one after each write. -/
theorem assembleA_row_emission (n : ℕ) (ro : List ℕ) (row : ℕ) (h : row < n * n) :
    (assembleA n ro).getD row [] = assembleRowSpec n row (ro.getD row 0) := by
  unfold assembleA
  rw [getD_map_range _ [] h, assembleRow_eq_spec]

/-- C8 witness: row 1 of the 2×2 grid. -/
theorem assembleA_row_emission_witness :
    (assembleA 2 [0, 3, 6, 9]).getD 1 []
      = assembleRowSpec 2 1 (([0, 3, 6, 9] : List ℕ).getD 1 0) :=
  assembleA_row_emission 2 [0, 3, 6, 9] 1 (by decide)

/-- Counting an indicator for positivity over a range. -/
theorem sum_ind_pos (n : ℕ) :
    ∑ i in Finset.range n, (if 0 < i then (1 : ℤ) else 0) = ((n - 1 : ℕ) : ℤ) := by
  rw [Finset.sum_boole]
  have hf : (Finset.range n).filter (fun i => 0 < i) = Finset.Ico 1 n := by
    ext i
    simp only [Finset.mem_filter, Finset.mem_range, Finset.mem_Ico]
    omega
  rw [hf, Nat.card_Ico]

/-- Counting an indicator for an upper bound over a range. -/
theorem sum_ind_lt (n m : ℕ) :
    ∑ i in Finset.range n, (if i < m then (1 : ℤ) else 0) = ((min m n : ℕ) : ℤ) := by
  rw [Finset.sum_boole]
  have hf : (Finset.range n).filter (fun i => i < m) = Finset.range (min m n) := by
    ext i
    simp only [Finset.mem_filter, Finset.mem_range, lt_min_iff]
    omega
  rw [hf, Finset.card_range]

/-- The nonzero count of row `i*n + j` in terms of the grid coordinates. -/
theorem countRow_at (n i j : ℕ) (hn : 0 < n) (hj : j < n) :
    countRow n (i * n + j)
      = 1 + (if 0 < i then (1 : ℤ) else 0) + (if 0 < j then (1 : ℤ) else 0)
        + (if i < n - 1 then (1 : ℤ) else 0) + (if j < n - 1 then (1 : ℤ) else 0) := by
  unfold countRow
  have hdiv : (i * n + j) / n = i := by
    rw [Nat.mul_comm i n, Nat.mul_add_div hn, Nat.div_eq_of_lt hj, Nat.add_zero]
  have hmod : (i * n + j) % n = j := by
    rw [Nat.mul_comm i n, Nat.mul_add_mod, Nat.mod_eq_of_lt hj]
  rw [hdiv, hmod]

/-- Total nonzero count of the n×n Poisson matrix: `5N - 4n` with `N = n²`
(the `N` diagonal entries plus `4N - 4n` neighbor entries). -/
theorem countRow_total (n : ℕ) :
    ∑ row in Finset.range (n * n), countRow n row
      = 5 * ((n * n : ℕ) : ℤ) - 4 * ((n : ℕ) : ℤ) := by
  rcases Nat.eq_zero_or_pos n with hn | hn
  · subst hn
    simp
  · have hstep : ∑ row in Finset.range (n * n), countRow n row
        = ∑ i in Finset.range n, ∑ j in Finset.range n, countRow n (i * n + j) := by
      nth_rewrite 1 [Finset.range_eq_Ico]
      rw [show Finset.Ico 0 (n * n) = Finset.Ico 0 (0 + n * n) from by rw [Nat.zero_add],
        ← sum_chunks (countRow n) 0 n n]
      refine Finset.sum_congr rfl ?_
      intro i _
      rw [Finset.sum_Ico_eq_sum_range, show 0 + i * n + n - (0 + i * n) = n from by omega]
      refine Finset.sum_congr rfl ?_
      intro j _
      rw [show 0 + i * n + j = i * n + j from by omega]
    rw [hstep]
    have hin : ∀ i, ∑ j in Finset.range n, countRow n (i * n + j)
        = (n : ℤ) * (1 + (if 0 < i then (1 : ℤ) else 0) + (if i < n - 1 then (1 : ℤ) else 0))
          + (((n - 1 : ℕ) : ℤ) + ((min (n - 1) n : ℕ) : ℤ)) := by
      intro i
      have hc : ∀ j ∈ Finset.range n, countRow n (i * n + j)
          = (1 + (if 0 < i then (1 : ℤ) else 0) + (if i < n - 1 then (1 : ℤ) else 0))
            + ((if 0 < j then (1 : ℤ) else 0) + (if j < n - 1 then (1 : ℤ) else 0)) := by
        intro j hj
        rw [Finset.mem_range] at hj
        rw [countRow_at n i j hn hj]
        ring
      rw [Finset.sum_congr rfl hc, Finset.sum_add_distrib, Finset.sum_const,
        Finset.card_range, Finset.sum_add_distrib, sum_ind_pos, sum_ind_lt,
        nsmul_eq_mul]
    rw [Finset.sum_congr rfl (fun i _ => hin i), Finset.sum_add_distrib,
      Finset.sum_const, Finset.card_range, nsmul_eq_mul, ← Finset.mul_sum,
      Finset.sum_add_distrib, Finset.sum_add_distrib, Finset.sum_const,
      Finset.card_range, nsmul_eq_mul, sum_ind_pos, sum_ind_lt,
      show min (n - 1) n = n - 1 from by omega]
    push_cast [Nat.cast_sub (show 1 ≤ n from hn)]
    ring

/-- Pointwise value of the Poisson row-offsets scan: entry `i ≤ n²` is the
sum of the first `i` per-row counts. -/
theorem row_offsets_poisson_at (n i : ℕ) (hi : i ≤ n * n) :
    (row_offsets_poisson n).getD i 0 = ∑ j in Finset.range i, countRow n j := by
  unfold row_offsets_poisson
  rw [exclusive_scan_spec _ _ 256 256 (by norm_num) (by norm_num),
    getD_map_range _ 0 (by omega : i < n * n + 1)]
  refine Finset.sum_congr rfl ?_
  intro j hj
  rw [Finset.mem_range] at hj
  unfold loadX
  rw [if_pos (by omega), count_nnz, getD_map_range _ 0 (by omega : j < n * n)]

/-- C3 (amended): for the n×n Poisson stencil (`n ≥ 2`, `N = n²` rows), each
row's stored nonzero count is 1 plus the number of existing neighbors, a
value in `{3,4,5}`; the scan's trailing entry `row_offsets[N]` equals the
true `nnz_total = 5N - 4n` (the claimed `4N - 4n` counts only the neighbor
entries and omits the `N` diagonal entries); and the `nnz_total` that
`solve_system` uses to size `col_indices` and `values` is
`csr_rowoffsets[N-1] = 5N - 4n - 3`, which is *not* that total — the last
(corner) row's three nonzeros are missing. -/
theorem poisson_nnz_totals (n : ℕ) (hn : 2 ≤ n) :
    (row_offsets_poisson n).getD (n * n) 0
        = 5 * ((n * n : ℕ) : ℤ) - 4 * ((n : ℕ) : ℤ) ∧
      solve_system_nnz n = 5 * ((n * n : ℕ) : ℤ) - 4 * ((n : ℕ) : ℤ) - 3 ∧
      solve_system_nnz n ≠ (row_offsets_poisson n).getD (n * n) 0 ∧
      ∀ row, row < n * n → 3 ≤ countRow n row ∧ countRow n row ≤ 5 := by
  have htot : (row_offsets_poisson n).getD (n * n) 0
      = 5 * ((n * n : ℕ) : ℤ) - 4 * ((n : ℕ) : ℤ) := by
    rw [row_offsets_poisson_at n (n * n) le_rfl, countRow_total]
  have hcorner : countRow n (n * n - 1) = 3 := by
    obtain ⟨k, rfl⟩ : ∃ k, n = k + 2 := ⟨n - 2, by omega⟩
    have h4 : (k + 2) * (k + 2) = k * k + 4 * k + 4 := by ring
    have h5 : (k + 1) * (k + 2) + (k + 1) = k * k + 4 * k + 3 := by ring
    have hidx : (k + 2) * (k + 2) - 1 = (k + 1) * (k + 2) + (k + 1) := by omega
    rw [hidx]
    rw [countRow_at (k + 2) (k + 1) (k + 1) (by omega) (by omega)]
    rw [if_pos (show 0 < k + 1 from by omega),
      if_neg (show ¬ k + 1 < k + 2 - 1 from by omega)]
    norm_num
  have hmiss : solve_system_nnz n
      = 5 * ((n * n : ℕ) : ℤ) - 4 * ((n : ℕ) : ℤ) - 3 := by
    unfold solve_system_nnz
    rw [row_offsets_poisson_at n (n * n - 1) (by omega)]
    have hsucc : n * n = (n * n - 1) + 1 := by
      have : 1 ≤ n * n := Nat.one_le_iff_ne_zero.mpr (by positivity)
      omega
    have hfull := countRow_total n
    rw [hsucc, Finset.sum_range_succ] at hfull
    rw [← hsucc] at hfull
    have := hcorner
    omega
  refine ⟨htot, hmiss, by rw [htot, hmiss]; omega, ?_⟩
  intro row hrow
  have hi : row / n < n := by
    have : 0 < n := by omega
    exact Nat.div_lt_of_lt_mul (by omega)
  have hj : row % n < n := Nat.mod_lt _ (by omega)
  unfold countRow
  split_ifs <;> constructor <;> omega

/-- C3 witness: the amended totals at `n = 2`. -/
theorem poisson_nnz_totals_witness :
    (row_offsets_poisson 2).getD (2 * 2) 0
        = 5 * ((2 * 2 : ℕ) : ℤ) - 4 * ((2 : ℕ) : ℤ) ∧
      solve_system_nnz 2 = 5 * ((2 * 2 : ℕ) : ℤ) - 4 * ((2 : ℕ) : ℤ) - 3 ∧
      solve_system_nnz 2 ≠ (row_offsets_poisson 2).getD (2 * 2) 0 ∧
      ∀ row, row < 2 * 2 → 3 ≤ countRow 2 row ∧ countRow 2 row ≤ 5 :=
  poisson_nnz_totals 2 (by decide)

set_option maxHeartbeats 2000000 in
/-- C3 counterexample: at `n = 2` (`N = 4`), the per-row counts are all 3,
`row_offsets[N] = 12`, the claimed total `4N - 4n = 8` is wrong, and the
total `solve_system` uses is `csr_rowoffsets[N-1] = 9 ≠ 12`. -/
theorem poisson_nnz_claim_false :
    count_nnz 2 = [3, 3, 3, 3] ∧
      (row_offsets_poisson 2).getD (2 * 2) 0 = 12 ∧
      (12 : ℤ) ≠ 4 * (2 * 2) - 4 * 2 ∧
      solve_system_nnz 2 = 9 ∧
      solve_system_nnz 2 ≠ (row_offsets_poisson 2).getD (2 * 2) 0 := by
  decide

/-- C5 witness: the amended return-shape statement at a concrete input. -/
theorem cg_returns_solution_only_witness :
    ∃ (t : CGState) (b : Bool),
      cgRun 1 [0, 1] [0] [2] [2] [9] = some (t, b) ∧
      conjugate_gradient 1 [0, 1] [0] [2] [2] [9] = t.sol :=
  cg_returns_solution_only 1 [0, 1] [0] [2] [2] [9]
